import Mathlib

/-!
Verification of the `imp` import-canonicalizer.

This file gives a shallow embedding of the four source files of the
repository (`parser.rs`, `import.rs`, `transformers.rs`, `main.rs`) and
settles the frozen claims about it.  Source buffers are lists of byte
values (`List Nat`); every Rust function is translated into an
executable Lean function operating on those lists.  Rust `BTreeSet`
values are represented by their iteration order: sorted, duplicate-free
lists, with `setInsert` modelling `BTreeSet::insert` (which keeps the
already-present element when an equal one is inserted).  Parser rules
mutate a cursor state `Ps`; here each rule takes the state and returns
`none` on failure (the Rust code restores the cursor on failure, so the
caller simply continues with its old state).  Loops in the source are
written with an explicit fuel argument; the top-level entry points pass
fuel `src.length + 1`, which is shown sufficient where a claim needs it.
The Rust `panic!` branches of the merge pass are modelled by `Option`,
with `none` meaning the process aborts.
-/

namespace Imp

/-- Byte values of an ASCII string literal. -/
def bytes (s : String) : List Nat := s.toList.map Char.toNat

/-- Lexicographic comparison of lists, as Rust derives it for `Vec<T>`
and `&[T]`: elementwise on the common prefix, then by length. -/
def cmpList (c : α → α → Ordering) : List α → List α → Ordering
  | [], [] => .eq
  | [], _ :: _ => .lt
  | _ :: _, [] => .gt
  | a :: as, b :: bs => (c a b).then (cmpList c as bs)

/-- Comparison of `Option` values as Rust derives it: `None < Some`,
and `Some` values compare by the payload. -/
def cmpOption (c : α → α → Ordering) : Option α → Option α → Ordering
  | none, none => .eq
  | none, some _ => .lt
  | some _, none => .gt
  | some a, some b => c a b

/-- `BTreeSet::insert` on the sorted-list representation of a set:
keyed by `c`; inserting an element equal to a present one is a no-op
that keeps the present element. -/
def setInsert (c : α → α → Ordering) (x : α) : List α → List α
  | [] => [x]
  | y :: ys =>
    match c x y with
    | .lt => x :: y :: ys
    | .eq => y :: ys
    | .gt => y :: setInsert c x ys

/-- Elementwise list equality by a given equality test (Rust `Vec`
`PartialEq` over the element `PartialEq`). -/
def listEqBy (eq : α → α → Bool) : List α → List α → Bool
  | [], [] => true
  | a :: as, b :: bs => eq a b && listEqBy eq as bs
  | _, _ => false

/-- `Token` from `parser.rs`: a byte slice plus its source offset. -/
structure Token where
  slice : List Nat
  i : Nat
deriving DecidableEq

/-- The manual `Ord` impl of `Token`: compares the slice only. -/
def Token.cmp (a b : Token) : Ordering := cmpList compare a.slice b.slice

/-- The manual `PartialEq` impl of `Token`: slice equality only. -/
def Token.beq (a b : Token) : Bool := a.slice == b.slice

/-- The DERIVED `PartialOrd` impl of `Token` (`#[derive(PartialOrd)]`
on the struct): lexicographic over the fields in declaration order,
slice first and then the offset `i`.  The derive always yields
`Some ordering` for these field types, so it is modelled as a total
`Ordering`. -/
def Token.lexCmp (a b : Token) : Ordering :=
  (cmpList compare a.slice b.slice).then (compare a.i b.i)

/-- The manual `Hash` impl of `Token` feeds exactly the slice to the
hasher; the data hashed is therefore this value. -/
def Token.hashData (t : Token) : List Nat := t.slice

/-- `Module` from `import.rs`: a dotted path of identifier tokens plus
an optional alias token (the Rust field is named `alias`, which is a
reserved word here). -/
structure Module where
  path : List Token
  al : Option Token
deriving DecidableEq

/-- The derived `Ord` of `Module`: lexicographic over the fields in
declaration order, using the manual slice-only `Token` order. -/
def Module.cmp (a b : Module) : Ordering :=
  (cmpList Token.cmp a.path b.path).then (cmpOption Token.cmp a.al b.al)

/-- `RelativeModule` from `import.rs`. -/
inductive RelativeModule where
  | Named (level : Nat) (path : List Token)
  | Unnamed (level : Nat)
deriving DecidableEq

/-- `RelativeModule::is_future`: level 0 and a first path segment
spelling `__future__`. -/
def RelativeModule.is_future : RelativeModule → Bool
  | .Named 0 path =>
    match path.head? with
    | some v => v.slice == bytes "__future__"
    | none => false
  | _ => false

/-- The manual `Ord` impl of `RelativeModule`: `Named` before
`Unnamed`; `Named` by level then path; `Unnamed` by level reversed. -/
def RelativeModule.cmp : RelativeModule → RelativeModule → Ordering
  | .Named level path, .Named level2 path2 =>
    (compare level level2).then (cmpList Token.cmp path path2)
  | .Named _ _, .Unnamed _ => .lt
  | .Unnamed _, .Named _ _ => .gt
  | .Unnamed level, .Unnamed level2 => (compare level level2).swap

/-- The manual `PartialEq` impl of `RelativeModule`: same variant and
equal fields, tokens compared by slice. -/
def RelativeModule.beq : RelativeModule → RelativeModule → Bool
  | .Named level path, .Named level2 path2 =>
    level == level2 && listEqBy Token.beq path path2
  | .Unnamed level, .Unnamed level2 => level == level2
  | _, _ => false

/-- `Import` from `import.rs`.  Module sets and identifier sets are
carried in their `BTreeSet` iteration order (sorted, deduplicated).
The Rust field `from` is a reserved word here and is named `frm`. -/
inductive Import where
  | Absolute (modules : List Module) (comment : Option Token)
  | Relative (frm : RelativeModule) (identifiers : List Token) (comment : Option Token)
  | Wildcard (frm : RelativeModule) (comment : Option Token)
deriving DecidableEq

/-- The manual `Ord` impl of `Import` (`import.rs` lines 108-129),
including the guard arm that makes any future `Relative` compare
`Less` without inspecting the other value. -/
def Import.cmp : Import → Import → Ordering
  | .Absolute modules _, other =>
    match other with
    | .Absolute modules2 _ => cmpList Module.cmp modules modules2
    | .Relative _ _ _ => .lt
    | .Wildcard _ _ => .lt
  | .Relative frm _ _, other =>
    if frm.is_future then .lt
    else
      match other with
      | .Absolute _ _ => .gt
      | .Relative frm2 _ _ => frm.cmp frm2
      | .Wildcard _ _ => .lt
  | .Wildcard frm _, other =>
    match other with
    | .Absolute _ _ => .gt
    | .Relative _ _ _ => .gt
    | .Wildcard frm2 _ => frm.cmp frm2

/-- Parser state `Ps` from `parser.rs`: the cursor `i` and the recorded
block-end offset `rest`. -/
structure Ps where
  i : Nat
  rest : Nat
deriving DecidableEq

/-- `Ps::new`. -/
def Ps.new : Ps := { i := 0, rest := 0 }

/-- `c == b'_' || c.is_ascii_alphanumeric()`. -/
def isIdentChar (c : Nat) : Bool :=
  c == 95 || (48 ≤ c && c ≤ 57) || (65 ≤ c && c ≤ 90) || (97 ≤ c && c ≤ 122)

/-- Length of the maximal identifier-character run starting at `pos`
(the count the loop in `Pd::identifier` computes). -/
def identRun (src : List Nat) (pos : Nat) : Nat :=
  ((src.drop pos).takeWhile isIdentChar).length

/-- The byte-by-byte match check of `Pd::string`: true iff the bytes of
`str` occur verbatim at `pos`. -/
def strAt (src : List Nat) (pos : Nat) : List Nat → Bool
  | [] => true
  | c :: cs =>
    match src[pos]? with
    | some b => b == c && strAt src (pos + 1) cs
    | none => false

namespace Pd

/-- `Pd::string`: on a full match advance by the length of the
literal and return true; otherwise leave the cursor untouched. -/
def string (src : List Nat) (str : List Nat) (s : Ps) : Bool × Ps :=
  if strAt src s.i str then (true, { s with i := s.i + str.length }) else (false, s)

/-- `Pd::identifier`: the maximal identifier-character run from the
cursor; fails (cursor unchanged) when the run is empty. -/
def identifier (src : List Nat) (s : Ps) : Option (Token × Ps) :=
  let n := identRun src s.i
  if n == 0 then none
  else some ({ slice := (src.drop s.i).take n, i := s.i }, { s with i := s.i + n })

/-- `Pd::comment`: requires `#` at the cursor; advances to just past
the next newline (or to the end of the buffer); the token slice is
`src[start .. s.i - 1]`. -/
def comment (src : List Nat) (s : Ps) : Option (Token × Ps) :=
  if src[s.i]? == some 35 then
    let start := s.i
    let i1 := s.i + ((src.drop s.i).takeWhile (fun c => c != 10)).length
    let i2 := if src.length > i1 then i1 + 1 else i1
    some ({ slice := (src.drop start).take (i2 - 1 - start), i := start }, { s with i := i2 })
  else none

/-- `Pd::whitespace`: consume a run of space and newline bytes. -/
def whitespace (src : List Nat) (s : Ps) : Ps :=
  { s with i := s.i + ((src.drop s.i).takeWhile (fun c => c == 32 || c == 10)).length }

/-- The loop of `Pd::module_path`: while an identifier parses, consume
whitespace, push it, and stop unless a dot follows (consuming the
whitespace after the dot).  `fuel` bounds the iterations; the entry
point passes `src.length + 1`, which the cursor advancement makes
sufficient. -/
def module_path_go (src : List Nat) : Nat → Ps → List Token → Option (List Token × Ps)
  | 0, _, _ => none
  | fuel + 1, s, path =>
    match identifier src s with
    | none => if path.isEmpty then none else some (path, s)
    | some (tok, s1) =>
      let s2 := whitespace src s1
      let path2 := path ++ [tok]
      match string src (bytes ".") s2 with
      | (true, s3) => module_path_go src fuel (whitespace src s3) path2
      | (false, s3) => some (path2, s3)

/-- `Pd::module_path`. -/
def module_path (src : List Nat) (s : Ps) : Option (List Token × Ps) :=
  module_path_go src (src.length + 1) s []

/-- `Pd::module`: a module path, optionally followed by `as` and an
alias identifier (whose failure fails the whole rule). -/
def module (src : List Nat) (s : Ps) : Option (Module × Ps) :=
  match module_path src s with
  | none => none
  | some (path, s1) =>
    let s2 := whitespace src s1
    match string src (bytes "as") s2 with
    | (true, s3) =>
      let s4 := whitespace src s3
      match identifier src s4 with
      | none => none
      | some (tok, s5) => some ({ path := path, al := some tok }, s5)
    | (false, s3) => some ({ path := path, al := none }, s3)

/-- The loop of `Pd::module_list`: a module (whose failure fails the
whole list, including after a comma), whitespace, insertion into the
set, and continuation iff a comma follows. -/
def module_list_go (src : List Nat) : Nat → Ps → List Module → Option (List Module × Ps)
  | 0, _, _ => none
  | fuel + 1, s, modules =>
    match module src s with
    | none => none
    | some (m, s1) =>
      let s2 := whitespace src s1
      let modules2 := setInsert Module.cmp m modules
      match string src (bytes ",") s2 with
      | (true, s3) => module_list_go src fuel (whitespace src s3) modules2
      | (false, s3) => some (modules2, s3)

/-- `Pd::module_list`: optional `(`, the module loop, optional `)`
followed by whitespace, and a non-emptiness check. -/
def module_list (src : List Nat) (s : Ps) : Option (List Module × Ps) :=
  let (_, s0) := string src (bytes "(") s
  match module_list_go src (src.length + 1) s0 [] with
  | none => none
  | some (modules, s1) =>
    let (b2, s2) := string src (bytes ")") s1
    let s3 := if b2 then whitespace src s2 else s2
    if modules.isEmpty then none else some (modules, s3)

/-- The loop of `Pd::identifier_list`, analogous to the module loop
over bare identifiers. -/
def identifier_list_go (src : List Nat) : Nat → Ps → List Token → Option (List Token × Ps)
  | 0, _, _ => none
  | fuel + 1, s, identifiers =>
    match identifier src s with
    | none => none
    | some (t, s1) =>
      let s2 := whitespace src s1
      let identifiers2 := setInsert Token.cmp t identifiers
      match string src (bytes ",") s2 with
      | (true, s3) => identifier_list_go src fuel (whitespace src s3) identifiers2
      | (false, s3) => some (identifiers2, s3)

/-- `Pd::identifier_list`. -/
def identifier_list (src : List Nat) (s : Ps) : Option (List Token × Ps) :=
  let (_, s0) := string src (bytes "(") s
  match identifier_list_go src (src.length + 1) s0 [] with
  | none => none
  | some (identifiers, s1) =>
    let (b2, s2) := string src (bytes ")") s1
    let s3 := if b2 then whitespace src s2 else s2
    if identifiers.isEmpty then none else some (identifiers, s3)

/-- The leading-dot loop of `Pd::relative_module`. -/
def dots_go (src : List Nat) : Nat → Ps → Nat → Nat × Ps
  | 0, s, level => (level, s)
  | fuel + 1, s, level =>
    match string src (bytes ".") s with
    | (true, s1) => dots_go src fuel s1 (level + 1)
    | (false, s1) => (level, s1)

/-- `Pd::relative_module`: count leading dots, then try a module path;
`Named` on success, failure at level 0, `Unnamed` otherwise. -/
def relative_module (src : List Nat) (s : Ps) : Option (RelativeModule × Ps) :=
  let (level, s1) := dots_go src (src.length + 1) s 0
  match module_path src s1 with
  | some (path, s2) => some (.Named level path, s2)
  | none => if level == 0 then none else some (.Unnamed level, s1)

/-- The `let comment = self.comment(s);` pattern: an optional comment
that leaves the state unchanged when absent. -/
def optComment (src : List Nat) (s : Ps) : Option Token × Ps :=
  match comment src s with
  | some (t, s1) => (some t, s1)
  | none => (none, s)

/-- `Pd::import` (named `import_stmt` because `import` is reserved
here): the absolute branch behind the literal `import`, else the
`from` branch producing a wildcard or a relative import.  Every branch
ends by consuming trailing whitespace. -/
def import_stmt (src : List Nat) (s : Ps) : Option (Import × Ps) :=
  match string src (bytes "import") s with
  | (true, s1) =>
    let s2 := whitespace src s1
    match module_list src s2 with
    | none => none
    | some (modules, s3) =>
      let s4 := whitespace src s3
      let (c, s5) := optComment src s4
      let s6 := whitespace src s5
      some (.Absolute modules c, s6)
  | (false, _) =>
    match string src (bytes "from") s with
    | (true, s1) =>
      let s2 := whitespace src s1
      match relative_module src s2 with
      | none => none
      | some (frm, s3) =>
        let s4 := whitespace src s3
        match string src (bytes "import") s4 with
        | (false, _) => none
        | (true, s5) =>
          let s6 := whitespace src s5
          match string src (bytes "*") s6 with
          | (true, s7) =>
            let s8 := whitespace src s7
            let (c, s9) := optComment src s8
            let s10 := whitespace src s9
            some (.Wildcard frm c, s10)
          | (false, s7) =>
            match identifier_list src s7 with
            | none => none
            | some (identifiers, s8) =>
              let s9 := whitespace src s8
              let (c, s10) := optComment src s9
              let s11 := whitespace src s10
              some (.Relative frm identifiers c, s11)
    | (false, _) => none

/-- The statement loop of `Pd::start`: while an import statement
parses, record the cursor in `rest`, consume whitespace and push the
statement. -/
def start_go (src : List Nat) : Nat → Ps → List Import → Option (List Import × Ps)
  | 0, _, _ => none
  | fuel + 1, s, imports =>
    match import_stmt src s with
    | none => some (imports, s)
    | some (imp, s1) =>
      let s2 := { s1 with rest := s1.i }
      let s3 := whitespace src s2
      start_go src fuel s3 (imports ++ [imp])

/-- `Pd::start`: leading whitespace, then the statement loop. -/
def start (src : List Nat) (s : Ps) : Option (List Import × Ps) :=
  start_go src (src.length + 1) (whitespace src s) []

/-- `Pd::rest`: the buffer slice from the block-end offset onwards. -/
def rest (src : List Nat) (s : Ps) : List Nat := src.drop s.rest

end Pd

/-! Transformers (`transformers.rs`).  The grouping map
`BTreeMap<usize, Vec<usize>>` is represented as an association list
sorted by key; its iteration order is the list order. -/

/-- The `find_map` of the first phase of `combine_relative_imports`:
scan the map in key order for a group whose first-occurrence index
holds a `Relative` with an origin equal to `frm`.  The source panics
when `imports[j]` is not `Relative` (or the index is out of bounds);
that abort is the outer `none`.  `some none` means no group matched,
`some (some j)` the matching key. -/
def findGroup (imports : List Import) (frm : RelativeModule) :
    List (Nat × List Nat) → Option (Option Nat)
  | [] => some none
  | (j, _) :: ms =>
    match imports[j]? with
    | some (.Relative frm2 _ _) =>
      if RelativeModule.beq frm2 frm then some (some j) else findGroup imports frm ms
    | _ => none

/-- `BTreeMap::insert` of a fresh group, on the sorted representation
(an equal key would be replaced; in the pass, keys only grow). -/
def mapInsert (k : Nat) (val : List Nat) : List (Nat × List Nat) → List (Nat × List Nat)
  | [] => [(k, val)]
  | (k2, v2) :: ms =>
    if k < k2 then (k, val) :: (k2, v2) :: ms
    else if k == k2 then (k, val) :: ms
    else (k2, v2) :: mapInsert k val ms

/-- `v.push(i)` on the group with key `j`. -/
def mapPush (j i : Nat) : List (Nat × List Nat) → List (Nat × List Nat)
  | [] => []
  | (k, v) :: ms => if k == j then (k, v ++ [i]) :: ms else (k, v) :: mapPush j i ms

/-- Phase one of `combine_relative_imports`: enumerate the list; for
each `Relative` either push its index onto the matching group or open
a fresh group keyed by the index. -/
def buildGroups_go (imports : List Import) :
    Nat → List Import → List (Nat × List Nat) → Option (List (Nat × List Nat))
  | _, [], map => some map
  | i, imp :: rem, map =>
    match imp with
    | .Relative frm _ _ =>
      match findGroup imports frm map with
      | none => none
      | some (some j) => buildGroups_go imports (i + 1) rem (mapPush j i map)
      | some none => buildGroups_go imports (i + 1) rem (mapInsert i [] map)
    | _ => buildGroups_go imports (i + 1) rem map

/-- Phase one, started at index 0 with an empty map. -/
def buildGroups (imports : List Import) : Option (List (Nat × List Nat)) :=
  buildGroups_go imports 0 imports []

/-- The `to_combine` collection of phase two: concatenate the
identifier sets at the indices of a group, aborting (`none`) when an
index does not hold a `Relative`. -/
def collectIds (imports : List Import) : List Nat → Option (List Token)
  | [] => some []
  | j :: js =>
    match imports[j]? with
    | some (.Relative _ identifiers _) =>
      (collectIds imports js).map (identifiers ++ ·)
    | _ => none

/-- Phase two of `combine_relative_imports`: for each group in key
order, union the collected identifiers into the entry at the group
key, which must be `Relative` (else the source panics). -/
def mergePhase (imports : List Import) : List (Nat × List Nat) → Option (List Import)
  | [] => some imports
  | (i, v) :: ms =>
    match collectIds imports v with
    | none => none
    | some toCombine =>
      match imports[i]? with
      | some (.Relative frm identifiers c) =>
        mergePhase
          (imports.set i
            (.Relative frm (toCombine.foldl (fun acc t => setInsert Token.cmp t acc) identifiers) c))
          ms
      | _ => none

/-- The per-group `retain` of phase three: the counter `i` runs over
positions of the CURRENT list and entries whose position occurs in `v`
are dropped.  (The indices in `v` refer to the original list, so after
an earlier group has removed entries the positions no longer line
up.) -/
def retainNotIn (v : List Nat) (imports : List Import) : List Import :=
  (imports.enum.filter (fun p => !v.contains p.1)).map (·.2)

/-- Phase three of `combine_relative_imports`: one `retain` per group,
in key order. -/
def dropPhase (map : List (Nat × List Nat)) (imports : List Import) : List Import :=
  map.foldl (fun acc p => retainNotIn p.2 acc) imports

/-- `combine_relative_imports` (`transformers.rs` lines 8-42); `none`
models a `panic!`. -/
def combine_relative_imports (imports : List Import) : Option (List Import) :=
  match buildGroups imports with
  | none => none
  | some map =>
    match mergePhase imports map with
    | none => none
    | some imports2 => some (dropPhase map imports2)

/-- Index `k` holds a `Relative`-shaped entry of `l`. -/
def isRelAt (l : List Import) (k : Nat) : Prop :=
  ∃ frm ids c, l[k]? = some (.Relative frm ids c)

/-- The invariant of the grouping map: every key and every stored
index refers to a `Relative`-shaped entry of `l`. -/
def GoodMap (l : List Import) (map : List (Nat × List Nat)) : Prop :=
  ∀ p ∈ map, isRelAt l p.1 ∧ ∀ j ∈ p.2, isRelAt l j

/-- The `retain` closure of `separate_absolute_imports` over one
module set (iterated in set order): the first element is kept, every
later one is moved to the separated list. -/
def sepRetain (done : Bool) : List Module → List Module × List Module
  | [] => ([], [])
  | m :: ms =>
    if done then
      let (k, sep) := sepRetain done ms
      (k, m :: sep)
    else
      let (k, sep) := sepRetain true ms
      (m :: k, sep)

/-- The mutation loop of `separate_absolute_imports`: rewrite each
`Absolute` in place and collect the separated modules in list order. -/
def separateAux : List Import → List Import × List Module
  | [] => ([], [])
  | .Absolute modules c :: ims =>
    let (k, sep) := sepRetain false modules
    let (ims2, sep2) := separateAux ims
    (.Absolute k c :: ims2, sep ++ sep2)
  | imp :: ims =>
    let (ims2, sep2) := separateAux ims
    (imp :: ims2, sep2)

/-- `separate_absolute_imports` (`transformers.rs` lines 45-67). -/
def separate_absolute_imports (imports : List Import) : List Import :=
  let (ims, sep) := separateAux imports
  ims ++ sep.map (fun m => .Absolute [m] none)

/-! Renderer (the `Display` impls of `import.rs`). -/

/-- `Display` of `Module`: the dotted path, then ` as alias`. -/
def renderModule (m : Module) : List Nat :=
  List.intercalate (bytes ".") (m.path.map Token.slice) ++
    (match m.al with
     | some a => bytes " as " ++ a.slice
     | none => [])

/-- `Display` of `RelativeModule`: `level` dots, then the dotted path
when `Named`. -/
def renderRelativeModule : RelativeModule → List Nat
  | .Named level path =>
    List.replicate level 46 ++ List.intercalate (bytes ".") (path.map Token.slice)
  | .Unnamed level => List.replicate level 46

/-- The optional trailing `"  comment"` of each rendered statement. -/
def renderComment : Option Token → List Nat
  | some c => bytes "  " ++ c.slice
  | none => []

/-- `Display` of `Import`. -/
def renderImport : Import → List Nat
  | .Absolute modules c =>
    bytes "import " ++ List.intercalate (bytes ", ") (modules.map renderModule) ++
      renderComment c
  | .Relative frm identifiers c =>
    bytes "from " ++ renderRelativeModule frm ++ bytes " import " ++
      List.intercalate (bytes ", ") (identifiers.map Token.slice) ++ renderComment c
  | .Wildcard frm c =>
    bytes "from " ++ renderRelativeModule frm ++ bytes " import *" ++ renderComment c

/-! The sort.  `imports.sort()` is the Rust stable slice sort, which
for the short slices this program produces (fewer than 20 entries) is
exactly a left-to-right insertion sort: each element is shifted left
past every predecessor `p` with `is_less(element, p)`.  `insertRust`
performs one such insertion into the reversed already-sorted prefix. -/

/-- One insertion step, on the reversed prefix. -/
def insertRust (lt : α → α → Bool) (x : α) : List α → List α
  | [] => [x]
  | y :: ys => if lt x y then y :: insertRust lt x ys else x :: y :: ys

/-- The insertion sort, folding left over the input with a reversed
accumulator. -/
def sortRust (lt : α → α → Bool) (l : List α) : List α :=
  (l.foldl (fun acc x => insertRust lt x acc) []).reverse

/-- `a < b` in Rust terms: `cmp` returns `Less`. -/
def importLt (a b : Import) : Bool := Import.cmp a b == Ordering.lt

/-- The model of `imports.sort()`. -/
def sortImports (l : List Import) : List Import := sortRust importLt l

/-- `main` (`main.rs`): parse, append the parsed seed statement
`from __future__ import annotations`, merge, split, sort, and render
each statement on its own line followed by two blank newlines and the
remainder.  `none` models the panics (`unwrap` and the merge-pass
`panic!`). -/
def pipeline (src : List Nat) : Option (List Nat) :=
  match Pd.start src Ps.new with
  | none => none
  | some (imports, s) =>
    match Pd.start (bytes "from __future__ import annotations") Ps.new with
    | none => none
    | some (required_imports, _) =>
      match combine_relative_imports (imports ++ required_imports) with
      | none => none
      | some imports2 =>
        let imports3 := sortImports (separate_absolute_imports imports2)
        some ((imports3.map (fun i => renderImport i ++ [10])).flatten ++
          [10, 10] ++ Pd.rest src s)

/-! Spec-side definitions for the split-pass claim: what the spec says
the pass does to each entry. -/

/-- Per the spec, the rewrite each entry undergoes in place: an
`Absolute` keeps only the first element of its module set (in set
order) and its comment; everything else is untouched. -/
def keepFirstAbs : Import → Import
  | .Absolute (m :: _) c => .Absolute [m] c
  | i => i

/-- Per the spec, the standalone entries appended for one original
entry: one single-module comment-free `Absolute` per remaining module
of an `Absolute`, nothing for other variants. -/
def splitRestAbs : Import → List Import
  | .Absolute (_ :: ms) _ => ms.map (fun m => .Absolute [m] none)
  | _ => []

/-- The tail modules of an `Absolute` (the ones the split pass moves
out), used to state the shape of `separateAux`. -/
def absTail : Import → List Module
  | .Absolute (_ :: ms) _ => ms
  | _ => []

/-! Concrete values used by the counterexample and evaluation
theorems. -/

/-- The `__future__` path token of the seed statement buffer. -/
def futTok : Token := { slice := bytes "__future__", i := 5 }

/-- The identifier token of the seed statement buffer. -/
def annTok : Token := { slice := bytes "annotations", i := 23 }

/-- A `from __future__ import annotations` entry. -/
def futImp : Import := .Relative (.Named 0 [futTok]) [annTok] none

/-- An `import os` entry. -/
def absOs : Import := .Absolute [{ path := [{ slice := bytes "os", i := 7 }], al := none }] none

/-- An `import aa` entry; `aa` sorts before `os`. -/
def absAa : Import := .Absolute [{ path := [{ slice := bytes "aa", i := 0 }], al := none }] none

/-- Identifier tokens for the merge-pass evaluation. -/
def tokA : Token := { slice := bytes "a", i := 0 }

/-- See `tokA`. -/
def tokB : Token := { slice := bytes "b", i := 0 }

/-- See `tokA`. -/
def tokC : Token := { slice := bytes "c", i := 0 }

/-- See `tokA`. -/
def tokD : Token := { slice := bytes "d", i := 0 }

/-- `from . import a`. -/
def r1a : Import := .Relative (.Unnamed 1) [tokA] none

/-- `from .. import c`. -/
def r2c : Import := .Relative (.Unnamed 2) [tokC] none

/-- `from . import b`. -/
def r1b : Import := .Relative (.Unnamed 1) [tokB] none

/-- `from .. import d`. -/
def r2d : Import := .Relative (.Unnamed 2) [tokD] none

/-- An `import aa, os` entry with two modules, exercising the split
pass. -/
def absTwo : Import :=
  .Absolute [{ path := [{ slice := bytes "aa", i := 0 }], al := none },
             { path := [{ slice := bytes "os", i := 7 }], al := none }] none

/-- Claim C1: the claim states that `Import::cmp` is a strict total
order (irreflexive on every value, antisymmetric and transitive on
distinct values).  The code violates all three parts at future
relative imports: a future `Relative` compares `Less` than itself; it
and an `Absolute` each compare `Less` than the other; and `Less` fails
to be transitive on `import os` < `from __future__ import annotations`
< `import aa` while `import os` > `import aa`. -/
theorem C1_cmp_not_strict_total_order :
    Import.cmp futImp futImp = .lt ∧
    (Import.cmp absOs futImp = .lt ∧ Import.cmp futImp absOs = .lt) ∧
    (Import.cmp futImp absAa = .lt ∧ Import.cmp absOs absAa = .gt) := by
  decide

/-- Claim C2: the claim states that after sorting, every future
`Relative` is placed strictly before every other entry, including
every `Absolute`.  On a list holding the future entry and then an
absolute `os` entry, the sort (the insertion sort Rust runs on short slices)
moves the `Absolute` in front of the future entry, because an
`Absolute` also compares `Less` than a future `Relative`. -/
theorem C2_sort_puts_absolute_before_future :
    RelativeModule.is_future (RelativeModule.Named 0 [futTok]) = true ∧
    sortImports [futImp, absOs] = [absOs, futImp] := by
  decide

/-- Claim C3: the claim states the full pipeline is idempotent.  On
the buffer `import os\n` the first run emits the future import first
(the seed is appended last and is shifted to the front), but the
second run parses that output with the future import first and the
sort then shifts `import os` in front of it, so the pipeline is not
idempotent. -/
theorem C3_pipeline_not_idempotent :
    pipeline (bytes "import os\n") =
      some (bytes "from __future__ import annotations\nimport os\n\n\n") ∧
    pipeline (bytes "from __future__ import annotations\nimport os\n\n\n") =
      some (bytes "import os\nfrom __future__ import annotations\n\n\n") ∧
    bytes "import os\nfrom __future__ import annotations\n\n\n" ≠
      bytes "from __future__ import annotations\nimport os\n\n\n" := by
  decide

/-- Claim C4: the claim states that after the merge pass exactly the
first-occurring member of each equal-origin group survives.  With two
interleaved groups, the per-group `retain` counters run over the
already-shrunk list while the stored indices refer to the original
list, so the duplicate `from .. import d` entry survives the pass. -/
theorem C4_merge_leaves_duplicate :
    combine_relative_imports [r1a, r2c, r1b, r2d] =
      some [.Relative (.Unnamed 1) [tokA, tokB] none,
            .Relative (.Unnamed 2) [tokC, tokD] none,
            .Relative (.Unnamed 2) [tokD] none] := by
  decide

/-- Claim C7: the claim states the comment token excludes only the
terminating newline.  When the buffer ends inside a comment with no
newline, the token drops the final comment byte as well: on `#ab` the
cursor correctly stops at the end of the buffer but the token slice is
`#a`. -/
theorem C7_comment_truncated_at_eof :
    Pd.comment (bytes "#ab") Ps.new =
      some ({ slice := bytes "#a", i := 0 }, { i := 3, rest := 0 }) := by
  decide

/-- Claim C8: the claim states every ordering comparison treats
same-spelling tokens as equal.  Equality, the manual `Ord`, and the
hashed data indeed use the slice only, but the derived `PartialOrd`
(the impl behind `<`, `<=` and `partial_cmp`) compares the offset
field after the slice and distinguishes the two tokens. -/
theorem C8_derived_lex_order_uses_offset :
    Token.beq { slice := bytes "a", i := 0 } { slice := bytes "a", i := 5 } = true ∧
    Token.cmp { slice := bytes "a", i := 0 } { slice := bytes "a", i := 5 } = .eq ∧
    Token.hashData { slice := bytes "a", i := 0 } =
      Token.hashData { slice := bytes "a", i := 5 } ∧
    Token.lexCmp { slice := bytes "a", i := 0 } { slice := bytes "a", i := 5 } = .lt := by
  decide

/-- Claim C10: keyword matching requires no separator after the
literal: on the buffer `importx` the import rule succeeds and yields
an `Absolute` import of the single module `x` (the identifier run
right after the literal), with the cursor at the end. -/
theorem C10_importx_parses_as_absolute :
    Pd.import_stmt (bytes "importx") Ps.new =
      some (.Absolute [{ path := [{ slice := bytes "x", i := 6 }], al := none }] none,
        { i := 7, rest := 0 }) := by
  decide

/-- Claim C6, counterexample: the claim states the block-end cursor is
recorded before the whitespace that follows the last statement.  On
`import os\nx = 1\n` the statement `import os` ends at offset 9 and is
followed by a newline (byte 10 at index 9), yet the recorded cursor is
10: the rule itself consumed the trailing whitespace before the cursor
was recorded. -/
theorem C6_counterexample_rest_after_whitespace :
    Pd.start (bytes "import os\nx = 1\n") Ps.new =
      some ([.Absolute [{ path := [{ slice := bytes "os", i := 7 }], al := none }] none],
        { i := 10, rest := 10 }) ∧
    (bytes "import os\nx = 1\n")[9]? = some 10 := by
  decide

/-! Lemmas about the split pass, leading to claim C5. -/

/-- Once `done` is set, the retain closure moves every remaining
module to the separated list. -/
theorem sepRetain_true_eq (ms : List Module) : sepRetain true ms = ([], ms) := by
  induction ms with
  | nil => rfl
  | cons m ms ih => simp [sepRetain, ih]

/-- The retain closure keeps the first module and separates the
rest. -/
theorem sepRetain_false_eq (ms : List Module) :
    sepRetain false ms = (ms.take 1, ms.drop 1) := by
  cases ms with
  | nil => rfl
  | cons m ms => simp [sepRetain, sepRetain_true_eq]

/-- The appended entries of one input entry are its tail modules as
single-module comment-free absolutes. -/
theorem splitRestAbs_eq (i : Import) :
    splitRestAbs i = (absTail i).map (fun m => Import.Absolute [m] none) := by
  cases i with
  | Absolute ms c => cases ms <;> rfl
  | Relative frm ids c => rfl
  | Wildcard frm c => rfl

/-- Shape of the mutation loop of the split pass: each entry rewritten
in place, and the separated modules are the tails of the absolutes in
list order. -/
theorem separateAux_eq (l : List Import) :
    separateAux l = (l.map keepFirstAbs, (l.map absTail).flatten) := by
  induction l with
  | nil => rfl
  | cons x l ih =>
    cases x with
    | Absolute ms c =>
      cases ms with
      | nil => simp [separateAux, ih, sepRetain_false_eq, keepFirstAbs, absTail]
      | cons m ms => simp [separateAux, ih, sepRetain_false_eq, keepFirstAbs, absTail]
    | Relative frm ids c => simp [separateAux, ih, keepFirstAbs, absTail]
    | Wildcard frm c => simp [separateAux, ih, keepFirstAbs, absTail]

/-- Closed form of the split pass: every entry rewritten in place,
followed by the appended single-module entries in list order. -/
theorem separate_absolute_imports_eq (l : List Import) :
    separate_absolute_imports l =
      l.map keepFirstAbs ++ (l.map splitRestAbs).flatten := by
  have h2 : ∀ l2 : List Import, (l2.map splitRestAbs).flatten =
      ((l2.map absTail).flatten).map (fun m => Import.Absolute [m] none) := by
    intro l2
    induction l2 with
    | nil => rfl
    | cons x l2 ih => simp [splitRestAbs_eq, ih]
  simp [separate_absolute_imports, separateAux_eq, h2]

/-- Claim C5: after the split pass every `Absolute` names exactly one
module (given that, as the parser guarantees, no input `Absolute` has
an empty module set); each entry is rewritten in place to keep the
first module of its set together with the original comment, and one
single-module comment-free `Absolute` per remaining module is appended
after the list, so the module sets of the produced entries union back
to the original set; non-`Absolute` entries are untouched. -/
theorem C5_split_correct (l : List Import)
    (h : ∀ ms c, Import.Absolute ms c ∈ l → ms ≠ []) :
    separate_absolute_imports l =
      l.map keepFirstAbs ++ (l.map splitRestAbs).flatten ∧
    ∀ ms c, Import.Absolute ms c ∈ separate_absolute_imports l → ms.length = 1 := by
  refine ⟨separate_absolute_imports_eq l, ?_⟩
  intro ms c hmem
  rw [separate_absolute_imports_eq] at hmem
  rcases List.mem_append.mp hmem with hm | hm
  · rcases List.mem_map.mp hm with ⟨x, hx, hkeep⟩
    cases x with
    | Absolute ms2 c2 =>
      cases ms2 with
      | nil => exact absurd rfl (h [] c2 hx)
      | cons m ms2 =>
        have : Import.Absolute [m] c2 = Import.Absolute ms c := by
          simpa [keepFirstAbs] using hkeep
        cases this
        rfl
    | Relative frm ids c2 => simp [keepFirstAbs] at hkeep
    | Wildcard frm c2 => simp [keepFirstAbs] at hkeep
  · rcases List.mem_flatten.mp hm with ⟨lx, hlx, hmemx⟩
    rcases List.mem_map.mp hlx with ⟨x, hx, rfl⟩
    rw [splitRestAbs_eq] at hmemx
    rcases List.mem_map.mp hmemx with ⟨m, hm2, heq⟩
    cases heq
    rfl

/-- Witness for claim C5 at the concrete list
`[import aa, os; from __future__ import annotations]`. -/
theorem C5_split_correct_witness :
    separate_absolute_imports [absTwo, futImp] =
      [absTwo, futImp].map keepFirstAbs ++
        ([absTwo, futImp].map splitRestAbs).flatten ∧
    ∀ ms c, Import.Absolute ms c ∈ separate_absolute_imports [absTwo, futImp] →
      ms.length = 1 :=
  C5_split_correct [absTwo, futImp] (by
    intro ms c hmem
    simp [absTwo, futImp] at hmem
    rcases hmem with ⟨h1, h2⟩
    subst h1
    simp)

/-! Lemmas about the merge pass, leading to claim C9: the grouping map
only ever stores indices of `Relative`-shaped entries, so no lookup
hits a panic branch. -/

/-- With a good map, the group search never hits its panic branch. -/
theorem findGroup_isSome (l : List Import) (frm : RelativeModule) :
    ∀ map : List (Nat × List Nat), GoodMap l map → (findGroup l frm map).isSome = true
  | [], _ => rfl
  | (j, v) :: ms, h => by
    obtain ⟨frm2, ids, c, hj⟩ := (h (j, v) (List.mem_cons_self _ _)).1
    have hms : GoodMap l ms := fun p hp => h p (List.mem_cons_of_mem _ hp)
    simp only [findGroup, hj]
    by_cases hb : RelativeModule.beq frm2 frm
    · simp [hb]
    · simp only [hb, if_neg]
      exact findGroup_isSome l frm ms hms

/-- Pushing the index of a `Relative` entry onto a group preserves the
map invariant. -/
theorem mapPush_good (l : List Import) (j i : Nat) (hi : isRelAt l i) :
    ∀ map, GoodMap l map → GoodMap l (mapPush j i map) := by
  intro map
  induction map with
  | nil => intro h; simp only [mapPush]; exact h
  | cons kv ms ih =>
    intro h
    obtain ⟨k, v⟩ := kv
    have hhead := h (k, v) (List.mem_cons_self _ _)
    have hms : GoodMap l ms := fun p hp => h p (List.mem_cons_of_mem _ hp)
    by_cases hk : (k == j) = true
    · intro p hp
      rw [mapPush, if_pos hk] at hp
      rcases List.mem_cons.mp hp with rfl | hp
      · refine ⟨hhead.1, fun j2 hj2 => ?_⟩
        rcases List.mem_append.mp hj2 with h2 | h2
        · exact hhead.2 j2 h2
        · have : j2 = i := by simpa using h2
          subst this
          exact hi
      · exact hms p hp
    · intro p hp
      rw [mapPush, if_neg hk] at hp
      rcases List.mem_cons.mp hp with rfl | hp
      · exact hhead
      · exact ih hms p hp

/-- Opening a fresh empty group at the index of a `Relative` entry
preserves the map invariant. -/
theorem mapInsert_good (l : List Import) (i : Nat) (hi : isRelAt l i) :
    ∀ map, GoodMap l map → GoodMap l (mapInsert i [] map) := by
  intro map
  induction map with
  | nil =>
    intro _ p hp
    have : p = (i, []) := by simpa [mapInsert] using hp
    subst this
    exact ⟨hi, by simp⟩
  | cons kv ms ih =>
    intro h
    obtain ⟨k2, v2⟩ := kv
    have hhead := h (k2, v2) (List.mem_cons_self _ _)
    have hms : GoodMap l ms := fun p hp => h p (List.mem_cons_of_mem _ hp)
    intro p hp
    rw [mapInsert] at hp
    split at hp
    · rcases List.mem_cons.mp hp with rfl | hp
      · exact ⟨hi, by simp⟩
      · exact h p hp
    · split at hp
      · rcases List.mem_cons.mp hp with rfl | hp
        · exact ⟨hi, by simp⟩
        · exact hms p hp
      · rcases List.mem_cons.mp hp with rfl | hp
        · exact hhead
        · exact ih hms p hp

/-- Phase one never panics and produces a map satisfying the
invariant. -/
theorem buildGroups_go_good (l : List Import) :
    ∀ (rem : List Import) (i : Nat) (map : List (Nat × List Nat)),
      l.drop i = rem → GoodMap l map →
      ∃ map2, buildGroups_go l i rem map = some map2 ∧ GoodMap l map2 := by
  intro rem
  induction rem with
  | nil => intro i map _ h; exact ⟨map, rfl, h⟩
  | cons imp rem2 ih =>
    intro i map hdrop h
    have hget : l[i]? = some imp := by
      have h0 := List.getElem?_drop l i 0
      rw [hdrop] at h0
      simpa using h0.symm
    have hdrop2 : l.drop (i + 1) = rem2 := by
      have h1 := List.drop_drop 1 i l
      rw [hdrop] at h1
      simpa using h1.symm
    cases imp with
    | Relative frm ids c =>
      have hrel : isRelAt l i := ⟨frm, ids, c, hget⟩
      obtain ⟨r, hr⟩ := Option.isSome_iff_exists.mp (findGroup_isSome l frm map h)
      simp only [buildGroups_go, hr]
      cases r with
      | some j => exact ih (i + 1) (mapPush j i map) hdrop2 (mapPush_good l j i hrel map h)
      | none => exact ih (i + 1) (mapInsert i [] map) hdrop2 (mapInsert_good l i hrel map h)
    | Absolute ms c =>
      simp only [buildGroups_go]
      exact ih (i + 1) map hdrop2 h
    | Wildcard frm c =>
      simp only [buildGroups_go]
      exact ih (i + 1) map hdrop2 h

/-- Collecting the identifiers of a group of `Relative` indices never
panics. -/
theorem collectIds_isSome (l : List Import) :
    ∀ v : List Nat, (∀ j ∈ v, isRelAt l j) → ∃ tc, collectIds l v = some tc := by
  intro v
  induction v with
  | nil => intro _; exact ⟨[], rfl⟩
  | cons j js ih =>
    intro h
    obtain ⟨frm, ids, c, hj⟩ := h j (List.mem_cons_self _ _)
    obtain ⟨tc, htc⟩ := ih (fun j2 hj2 => h j2 (List.mem_cons_of_mem _ hj2))
    exact ⟨ids ++ tc, by simp [collectIds, hj, htc]⟩

/-- Replacing an entry by a `Relative` keeps every index that held a
`Relative` holding one. -/
theorem isRelAt_set (l : List Import) (i k : Nat) (frm : RelativeModule)
    (ids : List Token) (c : Option Token) (hk : isRelAt l k) :
    isRelAt (l.set i (.Relative frm ids c)) k := by
  obtain ⟨f2, i2, c2, hget⟩ := hk
  by_cases hik : i = k
  · subst hik
    have hlt : i < l.length := (List.getElem?_eq_some.mp hget).1
    exact ⟨frm, ids, c, by rw [List.getElem?_set_eq_of_lt _ hlt]⟩
  · exact ⟨f2, i2, c2, by rw [List.getElem?_set_ne hik]; exact hget⟩

/-- Replacing an entry by a `Relative` preserves the map invariant. -/
theorem GoodMap_set (l : List Import) (map : List (Nat × List Nat)) (i : Nat)
    (frm : RelativeModule) (ids : List Token) (c : Option Token)
    (h : GoodMap l map) : GoodMap (l.set i (.Relative frm ids c)) map :=
  fun p hp =>
    ⟨isRelAt_set l i p.1 frm ids c (h p hp).1,
     fun j hj => isRelAt_set l i j frm ids c ((h p hp).2 j hj)⟩

/-- Phase two never panics. -/
theorem mergePhase_isSome :
    ∀ (map : List (Nat × List Nat)) (l : List Import), GoodMap l map →
      ∃ l2, mergePhase l map = some l2 := by
  intro map
  induction map with
  | nil => intro l _; exact ⟨l, rfl⟩
  | cons kv ms ih =>
    intro l h
    obtain ⟨i, v⟩ := kv
    have hhead := h (i, v) (List.mem_cons_self _ _)
    obtain ⟨frm, ids, c, hi⟩ := hhead.1
    obtain ⟨tc, htc⟩ := collectIds_isSome l v hhead.2
    have hms : GoodMap l ms := fun p hp => h p (List.mem_cons_of_mem _ hp)
    obtain ⟨l2, hl2⟩ :=
      ih (l.set i (.Relative frm (tc.foldl (fun acc t => setInsert Token.cmp t acc) ids) c))
        (GoodMap_set l ms i frm (tc.foldl (fun acc t => setInsert Token.cmp t acc) ids) c hms)
    exact ⟨l2, by simp only [mergePhase, htc, hi, hl2]⟩

/-- Claim C9: on every input list the merge pass completes without
hitting a panic branch — every index the grouping map stores refers to
a `Relative`-shaped entry at the moment it is read. -/
theorem C9_merge_pass_never_panics (l : List Import) :
    (combine_relative_imports l).isSome = true := by
  obtain ⟨map, hmap, hgood⟩ :=
    buildGroups_go_good l l 0 [] (by simp) (by intro p hp; simp at hp)
  obtain ⟨l2, hl2⟩ := mergePhase_isSome map l hgood
  simp [combine_relative_imports, buildGroups, hmap, hl2]

/-! Cursor lemmas for the tokenizer and grammar rules, leading to
claim C6: every rule moves the cursor forward and keeps it inside the
buffer, so the statement loop of `start` terminates within its fuel
and never fails. -/

/-- A `takeWhile` prefix is no longer than the list. -/
theorem takeWhile_len_le (p : α → Bool) (l : List α) :
    (l.takeWhile p).length ≤ l.length := by
  induction l with
  | nil => simp [List.takeWhile]
  | cons a l ih =>
    simp only [List.takeWhile]
    cases p a
    · simp
    · simpa using ih

/-- `whitespace` never touches the recorded block-end offset. -/
theorem whitespace_rest (src : List Nat) (s : Ps) :
    (Pd.whitespace src s).rest = s.rest := rfl

/-- `whitespace` only moves the cursor forward. -/
theorem whitespace_i_le (src : List Nat) (s : Ps) : s.i ≤ (Pd.whitespace src s).i :=
  Nat.le_add_right _ _

/-- `whitespace` keeps the cursor inside the buffer. -/
theorem whitespace_i_bound (src : List Nat) (s : Ps) (h : s.i ≤ src.length) :
    (Pd.whitespace src s).i ≤ src.length := by
  have ht := takeWhile_len_le (fun c => c == 32 || c == 10) (src.drop s.i)
  rw [List.length_drop] at ht
  simp only [Pd.whitespace]
  omega

/-- A successful literal match lies inside the buffer. -/
theorem strAt_true_bound (src : List Nat) :
    ∀ (str : List Nat) (pos : Nat), str ≠ [] → strAt src pos str = true →
      pos + str.length ≤ src.length
  | [], _, hne, _ => absurd rfl hne
  | c :: cs, pos, _, h => by
    rw [strAt] at h
    cases hg : src[pos]? with
    | none => rw [hg] at h; exact absurd h (by simp)
    | some b =>
      rw [hg] at h
      simp only [Bool.and_eq_true] at h
      have hlt : pos < src.length := (List.getElem?_eq_some.mp hg).1
      cases cs with
      | nil => simpa using hlt
      | cons c2 cs2 =>
        have hrec := strAt_true_bound src (c2 :: cs2) (pos + 1) (by simp) h.2
        simp only [List.length_cons] at hrec ⊢
        omega

/-- `string` on a failed match returns the state unchanged. -/
theorem string_false_eq (src str : List Nat) (s : Ps) (h : strAt src s.i str = false) :
    Pd.string src str s = (false, s) := by
  simp [Pd.string, h]

/-- `string` on a successful match advances by the literal length
(stated with an explicit constructor so that later arithmetic sees the
fields). -/
theorem string_true_eq (src str : List Nat) (s : Ps) (h : strAt src s.i str = true) :
    Pd.string src str s = (true, Ps.mk (s.i + str.length) s.rest) := by
  simp [Pd.string, h]

/-- `whitespace_i_le` at an explicit constructor state. -/
theorem ws_mk_le (src : List Nat) (a b : Nat) : a ≤ (Pd.whitespace src (Ps.mk a b)).i :=
  whitespace_i_le src (Ps.mk a b)

/-- `whitespace_i_bound` at an explicit constructor state. -/
theorem ws_mk_bound (src : List Nat) (a b : Nat) (h : a ≤ src.length) :
    (Pd.whitespace src (Ps.mk a b)).i ≤ src.length :=
  whitespace_i_bound src (Ps.mk a b) h

/-- `whitespace_rest` at an explicit constructor state. -/
theorem ws_mk_rest (src : List Nat) (a b : Nat) :
    (Pd.whitespace src (Ps.mk a b)).rest = b :=
  whitespace_rest src (Ps.mk a b)

/-- A successful `identifier` advances strictly, stays inside the
buffer and preserves the block-end offset. -/
theorem identifier_spec (src : List Nat) (s : Ps) (t : Token) (s1 : Ps)
    (h : Pd.identifier src s = some (t, s1)) :
    s.i < s1.i ∧ s1.i ≤ src.length ∧ s1.rest = s.rest := by
  simp only [Pd.identifier] at h
  split at h
  · exact absurd h (by simp)
  · rename_i hne
    simp only [Option.some.injEq, Prod.mk.injEq] at h
    obtain ⟨-, hs1⟩ := h
    have hrun : identRun src s.i ≤ src.length - s.i := by
      have := takeWhile_len_le isIdentChar (src.drop s.i)
      rw [List.length_drop] at this
      exact this
    have hne2 : identRun src s.i ≠ 0 := by simpa using hne
    have hi : s1.i = s.i + identRun src s.i := by rw [← hs1]
    have hr : s1.rest = s.rest := by rw [← hs1]
    refine ⟨by omega, by omega, hr⟩

/-- A successful `comment` moves the cursor forward, stays inside the
buffer and preserves the block-end offset. -/
theorem comment_spec (src : List Nat) (s : Ps) (t : Token) (s1 : Ps)
    (h : Pd.comment src s = some (t, s1)) :
    s.i ≤ s1.i ∧ s1.i ≤ src.length ∧ s1.rest = s.rest := by
  simp only [Pd.comment] at h
  split at h
  · rename_i hhash
    have hlt : s.i < src.length := by
      have : src[s.i]? = some 35 := by simpa using hhash
      exact (List.getElem?_eq_some.mp this).1
    have htw := takeWhile_len_le (fun c => c != 10) (src.drop s.i)
    rw [List.length_drop] at htw
    simp only [Option.some.injEq, Prod.mk.injEq] at h
    obtain ⟨-, hs1⟩ := h
    have hi : s1.i =
        if src.length > s.i + ((src.drop s.i).takeWhile (fun c => c != 10)).length
        then s.i + ((src.drop s.i).takeWhile (fun c => c != 10)).length + 1
        else s.i + ((src.drop s.i).takeWhile (fun c => c != 10)).length := by
      rw [← hs1]
    have hr : s1.rest = s.rest := by rw [← hs1]
    refine ⟨?_, ?_, hr⟩ <;> rw [hi] <;> split <;> omega
  · exact absurd h (by simp)

/-- The module-path loop moves the cursor forward, keeps it inside
the buffer and preserves the block-end offset. -/
theorem module_path_go_spec (src : List Nat) :
    ∀ (fuel : Nat) (s : Ps) (path : List Token) (r : List Token) (s1 : Ps),
      Pd.module_path_go src fuel s path = some (r, s1) →
      s.i ≤ s1.i ∧ (s.i ≤ src.length → s1.i ≤ src.length) ∧ s1.rest = s.rest := by
  intro fuel
  induction fuel with
  | zero => intro s path r s1 h; exact absurd h (by simp [Pd.module_path_go])
  | succ fuel ih =>
    intro s path r s1 h
    cases hid : Pd.identifier src s with
    | none =>
      simp only [Pd.module_path_go, hid] at h
      split at h
      · exact absurd h (by simp)
      · simp only [Option.some.injEq, Prod.mk.injEq] at h
        obtain ⟨-, rfl⟩ := h
        exact ⟨le_refl _, fun hh => hh, rfl⟩
    | some ts =>
      obtain ⟨tok, sA⟩ := ts
      obtain ⟨h1, h2, h3⟩ := identifier_spec src s tok sA hid
      simp only [Pd.module_path_go, hid] at h
      have hwle := whitespace_i_le src sA
      have hwb := whitespace_i_bound src sA h2
      have hwr := whitespace_rest src sA
      cases hdot : strAt src (Pd.whitespace src sA).i (bytes ".") with
      | false =>
        rw [string_false_eq _ _ _ hdot] at h
        simp only [Option.some.injEq, Prod.mk.injEq] at h
        obtain ⟨-, rfl⟩ := h
        exact ⟨by omega, fun _ => hwb, by rw [hwr, h3]⟩
      | true =>
        rw [string_true_eq _ _ _ hdot] at h
        have hdb := strAt_true_bound src (bytes ".") (Pd.whitespace src sA).i (by decide) hdot
        have hlen : (bytes ".").length = 1 := rfl
        have hw2le := ws_mk_le src
          ((Pd.whitespace src sA).i + (bytes ".").length) (Pd.whitespace src sA).rest
        have hw2b := ws_mk_bound src
          ((Pd.whitespace src sA).i + (bytes ".").length) (Pd.whitespace src sA).rest
          (by omega)
        have hw2r := ws_mk_rest src
          ((Pd.whitespace src sA).i + (bytes ".").length) (Pd.whitespace src sA).rest
        obtain ⟨g1, g2, g3⟩ := ih _ _ _ _ h
        refine ⟨by omega, fun _ => g2 hw2b, ?_⟩
        rw [g3, hw2r, hwr, h3]

/-- `module_path` moves the cursor forward, keeps it inside the buffer
and preserves the block-end offset. -/
theorem module_path_spec (src : List Nat) (s : Ps) (r : List Token) (s1 : Ps)
    (h : Pd.module_path src s = some (r, s1)) :
    s.i ≤ s1.i ∧ (s.i ≤ src.length → s1.i ≤ src.length) ∧ s1.rest = s.rest :=
  module_path_go_spec src (src.length + 1) s [] r s1 h

/-- `module` moves the cursor forward, keeps it inside the buffer and
preserves the block-end offset. -/
theorem module_spec (src : List Nat) (s : Ps) (m : Module) (s1 : Ps)
    (h : Pd.module src s = some (m, s1)) :
    s.i ≤ s1.i ∧ (s.i ≤ src.length → s1.i ≤ src.length) ∧ s1.rest = s.rest := by
  cases hmp : Pd.module_path src s with
  | none => simp only [Pd.module, hmp] at h; exact absurd h (by simp)
  | some ps =>
    obtain ⟨path, sA⟩ := ps
    obtain ⟨h1, h2, h3⟩ := module_path_spec src s path sA hmp
    simp only [Pd.module, hmp] at h
    have hwle := whitespace_i_le src sA
    have hwr := whitespace_rest src sA
    cases has : strAt src (Pd.whitespace src sA).i (bytes "as") with
    | false =>
      rw [string_false_eq _ _ _ has] at h
      simp only [Option.some.injEq, Prod.mk.injEq] at h
      obtain ⟨-, rfl⟩ := h
      exact ⟨by omega, fun hL => whitespace_i_bound src sA (h2 hL), by rw [hwr, h3]⟩
    | true =>
      rw [string_true_eq _ _ _ has] at h
      have hab := strAt_true_bound src (bytes "as") (Pd.whitespace src sA).i (by decide) has
      have hlen : (bytes "as").length = 2 := rfl
      cases hid : Pd.identifier src (Pd.whitespace src
          (Ps.mk ((Pd.whitespace src sA).i + (bytes "as").length)
            (Pd.whitespace src sA).rest)) with
      | none => simp only [hid] at h; exact absurd h (by simp)
      | some tsB =>
        obtain ⟨tok2, sB⟩ := tsB
        obtain ⟨g1, g2, g3⟩ := identifier_spec src _ tok2 sB hid
        simp only [hid, Option.some.injEq, Prod.mk.injEq] at h
        obtain ⟨-, rfl⟩ := h
        have hwmk_le := ws_mk_le src
          ((Pd.whitespace src sA).i + (bytes "as").length) (Pd.whitespace src sA).rest
        have hwmk_r := ws_mk_rest src
          ((Pd.whitespace src sA).i + (bytes "as").length) (Pd.whitespace src sA).rest
        refine ⟨by omega, fun _ => g2, ?_⟩
        rw [g3, hwmk_r, hwr, h3]

/-- The module-list loop moves the cursor forward, keeps it inside
the buffer and preserves the block-end offset. -/
theorem module_list_go_spec (src : List Nat) :
    ∀ (fuel : Nat) (s : Ps) (modules : List Module) (r : List Module) (s1 : Ps),
      Pd.module_list_go src fuel s modules = some (r, s1) →
      s.i ≤ s1.i ∧ (s.i ≤ src.length → s1.i ≤ src.length) ∧ s1.rest = s.rest := by
  intro fuel
  induction fuel with
  | zero => intro s modules r s1 h; exact absurd h (by simp [Pd.module_list_go])
  | succ fuel ih =>
    intro s modules r s1 h
    cases hm : Pd.module src s with
    | none => simp only [Pd.module_list_go, hm] at h; exact absurd h (by simp)
    | some ms =>
      obtain ⟨m, sA⟩ := ms
      obtain ⟨h1, h2, h3⟩ := module_spec src s m sA hm
      simp only [Pd.module_list_go, hm] at h
      have hwle := whitespace_i_le src sA
      have hwr := whitespace_rest src sA
      cases hcm : strAt src (Pd.whitespace src sA).i (bytes ",") with
      | false =>
        rw [string_false_eq _ _ _ hcm] at h
        simp only [Option.some.injEq, Prod.mk.injEq] at h
        obtain ⟨-, rfl⟩ := h
        exact ⟨by omega, fun hL => whitespace_i_bound src sA (h2 hL), by rw [hwr, h3]⟩
      | true =>
        rw [string_true_eq _ _ _ hcm] at h
        have hdb := strAt_true_bound src (bytes ",") (Pd.whitespace src sA).i (by decide) hcm
        have hlen : (bytes ",").length = 1 := rfl
        have hw2le := ws_mk_le src
          ((Pd.whitespace src sA).i + (bytes ",").length) (Pd.whitespace src sA).rest
        have hw2b := ws_mk_bound src
          ((Pd.whitespace src sA).i + (bytes ",").length) (Pd.whitespace src sA).rest
          (by omega)
        have hw2r := ws_mk_rest src
          ((Pd.whitespace src sA).i + (bytes ",").length) (Pd.whitespace src sA).rest
        obtain ⟨g1, g2, g3⟩ := ih _ _ _ _ h
        refine ⟨by omega, fun _ => g2 hw2b, ?_⟩
        rw [g3, hw2r, hwr, h3]

/-- The identifier-list loop moves the cursor forward, keeps it inside
the buffer and preserves the block-end offset. -/
theorem identifier_list_go_spec (src : List Nat) :
    ∀ (fuel : Nat) (s : Ps) (identifiers : List Token) (r : List Token) (s1 : Ps),
      Pd.identifier_list_go src fuel s identifiers = some (r, s1) →
      s.i ≤ s1.i ∧ (s.i ≤ src.length → s1.i ≤ src.length) ∧ s1.rest = s.rest := by
  intro fuel
  induction fuel with
  | zero => intro s identifiers r s1 h; exact absurd h (by simp [Pd.identifier_list_go])
  | succ fuel ih =>
    intro s identifiers r s1 h
    cases hm : Pd.identifier src s with
    | none => simp only [Pd.identifier_list_go, hm] at h; exact absurd h (by simp)
    | some ms =>
      obtain ⟨t, sA⟩ := ms
      obtain ⟨h1, h2, h3⟩ := identifier_spec src s t sA hm
      simp only [Pd.identifier_list_go, hm] at h
      have hwle := whitespace_i_le src sA
      have hwb := whitespace_i_bound src sA h2
      have hwr := whitespace_rest src sA
      cases hcm : strAt src (Pd.whitespace src sA).i (bytes ",") with
      | false =>
        rw [string_false_eq _ _ _ hcm] at h
        simp only [Option.some.injEq, Prod.mk.injEq] at h
        obtain ⟨-, rfl⟩ := h
        exact ⟨by omega, fun _ => hwb, by rw [hwr, h3]⟩
      | true =>
        rw [string_true_eq _ _ _ hcm] at h
        have hdb := strAt_true_bound src (bytes ",") (Pd.whitespace src sA).i (by decide) hcm
        have hlen : (bytes ",").length = 1 := rfl
        have hw2le := ws_mk_le src
          ((Pd.whitespace src sA).i + (bytes ",").length) (Pd.whitespace src sA).rest
        have hw2b := ws_mk_bound src
          ((Pd.whitespace src sA).i + (bytes ",").length) (Pd.whitespace src sA).rest
          (by omega)
        have hw2r := ws_mk_rest src
          ((Pd.whitespace src sA).i + (bytes ",").length) (Pd.whitespace src sA).rest
        obtain ⟨g1, g2, g3⟩ := ih _ _ _ _ h
        refine ⟨by omega, fun _ => g2 hw2b, ?_⟩
        rw [g3, hw2r, hwr, h3]

/-- The dot loop moves the cursor forward, keeps it inside the buffer
and preserves the block-end offset. -/
theorem dots_go_spec (src : List Nat) :
    ∀ (fuel : Nat) (s : Ps) (level r : Nat) (s1 : Ps),
      Pd.dots_go src fuel s level = (r, s1) →
      s.i ≤ s1.i ∧ (s.i ≤ src.length → s1.i ≤ src.length) ∧ s1.rest = s.rest := by
  intro fuel
  induction fuel with
  | zero =>
    intro s level r s1 h
    simp only [Pd.dots_go, Prod.mk.injEq] at h
    obtain ⟨-, rfl⟩ := h
    exact ⟨le_refl _, fun hh => hh, rfl⟩
  | succ fuel ih =>
    intro s level r s1 h
    cases hdot : strAt src s.i (bytes ".") with
    | false =>
      simp only [Pd.dots_go, string_false_eq _ _ _ hdot, Prod.mk.injEq] at h
      obtain ⟨-, rfl⟩ := h
      exact ⟨le_refl _, fun hh => hh, rfl⟩
    | true =>
      simp only [Pd.dots_go, string_true_eq _ _ _ hdot] at h
      have hdb := strAt_true_bound src (bytes ".") s.i (by decide) hdot
      have hlen : (bytes ".").length = 1 := rfl
      obtain ⟨g1, g2, g3⟩ := ih _ _ _ _ h
      have g1b : s.i + (bytes ".").length ≤ s1.i := g1
      have g3b : s1.rest = s.rest := g3
      have hble : s.i + (bytes ".").length ≤ src.length := by omega
      exact ⟨by omega, fun _ => g2 hble, g3b⟩

/-- `relative_module` moves the cursor forward, keeps it inside the
buffer and preserves the block-end offset. -/
theorem relative_module_spec (src : List Nat) (s : Ps) (rm : RelativeModule) (s1 : Ps)
    (h : Pd.relative_module src s = some (rm, s1)) :
    s.i ≤ s1.i ∧ (s.i ≤ src.length → s1.i ≤ src.length) ∧ s1.rest = s.rest := by
  cases hd : Pd.dots_go src (src.length + 1) s 0 with
  | mk level sA =>
    obtain ⟨h1, h2, h3⟩ := dots_go_spec src (src.length + 1) s 0 level sA hd
    simp only [Pd.relative_module, hd] at h
    cases hmp : Pd.module_path src sA with
    | some ps =>
      obtain ⟨path, sB⟩ := ps
      obtain ⟨g1, g2, g3⟩ := module_path_spec src sA path sB hmp
      simp only [hmp, Option.some.injEq, Prod.mk.injEq] at h
      obtain ⟨-, rfl⟩ := h
      exact ⟨by omega, fun hL => g2 (h2 hL), by rw [g3, h3]⟩
    | none =>
      simp only [hmp] at h
      split at h
      · exact absurd h (by simp)
      · simp only [Option.some.injEq, Prod.mk.injEq] at h
        obtain ⟨-, rfl⟩ := h
        exact ⟨h1, h2, h3⟩

/-- The optional comment moves the cursor forward, keeps it inside the
buffer and preserves the block-end offset. -/
theorem optComment_spec (src : List Nat) (s : Ps) :
    s.i ≤ (Pd.optComment src s).2.i ∧
    (s.i ≤ src.length → (Pd.optComment src s).2.i ≤ src.length) ∧
    (Pd.optComment src s).2.rest = s.rest := by
  cases hc : Pd.comment src s with
  | none =>
    have he : Pd.optComment src s = (none, s) := by simp [Pd.optComment, hc]
    rw [he]
    exact ⟨le_refl _, fun hh => hh, rfl⟩
  | some ts =>
    obtain ⟨t, sA⟩ := ts
    obtain ⟨h1, h2, h3⟩ := comment_spec src s t sA hc
    simp only [Pd.optComment, hc]
    exact ⟨h1, fun _ => h2, h3⟩

/-- The part of `module_list` after the loop: the optional `)` and
the emptiness check move the cursor forward within the buffer and
preserve the block-end offset. -/
theorem list_close_spec (src : List Nat) (sB : Ps) (r : List α) (s1 : Ps)
    (modules : List α)
    (h : (if modules.isEmpty = true then none
          else some (modules,
            if (Pd.string src (bytes ")") sB).1 = true
            then Pd.whitespace src (Pd.string src (bytes ")") sB).2
            else (Pd.string src (bytes ")") sB).2)) = some (r, s1)) :
    sB.i ≤ s1.i ∧ (sB.i ≤ src.length → s1.i ≤ src.length) ∧ s1.rest = sB.rest := by
  split at h
  · exact absurd h (by simp)
  · simp only [Option.some.injEq, Prod.mk.injEq] at h
    obtain ⟨-, hs⟩ := h
    cases hclose : strAt src sB.i (bytes ")") with
    | false =>
      rw [string_false_eq _ _ _ hclose] at hs
      simp only [Bool.false_eq_true, if_false] at hs
      subst hs
      exact ⟨le_refl _, fun hh => hh, rfl⟩
    | true =>
      rw [string_true_eq _ _ _ hclose] at hs
      simp only [if_true] at hs
      have hcb := strAt_true_bound src (bytes ")") sB.i (by decide) hclose
      have hlen : (bytes ")").length = 1 := rfl
      have w1 := ws_mk_le src (sB.i + (bytes ")").length) sB.rest
      have w2 := ws_mk_bound src (sB.i + (bytes ")").length) sB.rest (by omega)
      have w3 := ws_mk_rest src (sB.i + (bytes ")").length) sB.rest
      subst hs
      exact ⟨by omega, fun _ => w2, w3⟩

/-- `module_list` moves the cursor forward, keeps it inside the
buffer and preserves the block-end offset. -/
theorem module_list_spec (src : List Nat) (s : Ps) (r : List Module) (s1 : Ps)
    (h : Pd.module_list src s = some (r, s1)) :
    s.i ≤ s1.i ∧ (s.i ≤ src.length → s1.i ≤ src.length) ∧ s1.rest = s.rest := by
  have hlen : (bytes "(").length = 1 := rfl
  cases hopen : strAt src s.i (bytes "(") with
  | false =>
    simp only [Pd.module_list, string_false_eq _ _ _ hopen] at h
    cases hgo : Pd.module_list_go src (src.length + 1) s [] with
    | none => simp only [hgo] at h; exact absurd h (by simp)
    | some pr =>
      obtain ⟨modules, sB⟩ := pr
      obtain ⟨g1, g2, g3⟩ := module_list_go_spec src (src.length + 1) s [] modules sB hgo
      simp only [hgo] at h
      obtain ⟨c1, c2, c3⟩ := list_close_spec src sB r s1 modules h
      exact ⟨by omega, fun hL => c2 (g2 hL), by rw [c3, g3]⟩
  | true =>
    simp only [Pd.module_list, string_true_eq _ _ _ hopen] at h
    have hob := strAt_true_bound src (bytes "(") s.i (by decide) hopen
    cases hgo : Pd.module_list_go src (src.length + 1)
        (Ps.mk (s.i + (bytes "(").length) s.rest) [] with
    | none => simp only [hgo] at h; exact absurd h (by simp)
    | some pr =>
      obtain ⟨modules, sB⟩ := pr
      obtain ⟨g1, g2, g3⟩ := module_list_go_spec src (src.length + 1) _ [] modules sB hgo
      have g1b : s.i + (bytes "(").length ≤ sB.i := g1
      have g3b : sB.rest = s.rest := g3
      have hble : s.i + (bytes "(").length ≤ src.length := by omega
      simp only [hgo] at h
      obtain ⟨c1, c2, c3⟩ := list_close_spec src sB r s1 modules h
      exact ⟨by omega, fun _ => c2 (g2 hble), by rw [c3, g3b]⟩

/-- `identifier_list` moves the cursor forward, keeps it inside the
buffer and preserves the block-end offset. -/
theorem identifier_list_spec (src : List Nat) (s : Ps) (r : List Token) (s1 : Ps)
    (h : Pd.identifier_list src s = some (r, s1)) :
    s.i ≤ s1.i ∧ (s.i ≤ src.length → s1.i ≤ src.length) ∧ s1.rest = s.rest := by
  have hlen : (bytes "(").length = 1 := rfl
  cases hopen : strAt src s.i (bytes "(") with
  | false =>
    simp only [Pd.identifier_list, string_false_eq _ _ _ hopen] at h
    cases hgo : Pd.identifier_list_go src (src.length + 1) s [] with
    | none => simp only [hgo] at h; exact absurd h (by simp)
    | some pr =>
      obtain ⟨identifiers, sB⟩ := pr
      obtain ⟨g1, g2, g3⟩ :=
        identifier_list_go_spec src (src.length + 1) s [] identifiers sB hgo
      simp only [hgo] at h
      obtain ⟨c1, c2, c3⟩ := list_close_spec src sB r s1 identifiers h
      exact ⟨by omega, fun hL => c2 (g2 hL), by rw [c3, g3]⟩
  | true =>
    simp only [Pd.identifier_list, string_true_eq _ _ _ hopen] at h
    have hob := strAt_true_bound src (bytes "(") s.i (by decide) hopen
    cases hgo : Pd.identifier_list_go src (src.length + 1)
        (Ps.mk (s.i + (bytes "(").length) s.rest) [] with
    | none => simp only [hgo] at h; exact absurd h (by simp)
    | some pr =>
      obtain ⟨identifiers, sB⟩ := pr
      obtain ⟨g1, g2, g3⟩ :=
        identifier_list_go_spec src (src.length + 1) _ [] identifiers sB hgo
      have g1b : s.i + (bytes "(").length ≤ sB.i := g1
      have g3b : sB.rest = s.rest := g3
      have hble : s.i + (bytes "(").length ≤ src.length := by omega
      simp only [hgo] at h
      obtain ⟨c1, c2, c3⟩ := list_close_spec src sB r s1 identifiers h
      exact ⟨by omega, fun _ => c2 (g2 hble), by rw [c3, g3b]⟩

/-- A successful `import` statement strictly advances the cursor (it
consumes at least its keyword), keeps it inside the buffer, and
preserves the block-end offset. -/
theorem import_stmt_spec (src : List Nat) (s : Ps) (imp : Import) (s1 : Ps)
    (h : Pd.import_stmt src s = some (imp, s1)) :
    s.i < s1.i ∧ s1.i ≤ src.length ∧ s1.rest = s.rest := by
  cases hkw : strAt src s.i (bytes "import") with
  | true =>
    simp only [Pd.import_stmt, string_true_eq _ _ _ hkw] at h
    have hkb := strAt_true_bound src (bytes "import") s.i (by decide) hkw
    have hkl : (bytes "import").length = 6 := rfl
    have w1 := ws_mk_le src (s.i + (bytes "import").length) s.rest
    have w2 := ws_mk_bound src (s.i + (bytes "import").length) s.rest (by omega)
    have w3 := ws_mk_rest src (s.i + (bytes "import").length) s.rest
    cases hml : Pd.module_list src
        (Pd.whitespace src (Ps.mk (s.i + (bytes "import").length) s.rest)) with
    | none => simp only [hml] at h; exact absurd h (by simp)
    | some pr =>
      obtain ⟨modules, sB⟩ := pr
      obtain ⟨g1, g2, g3⟩ := module_list_spec src _ modules sB hml
      simp only [hml] at h
      have u1 := whitespace_i_le src sB
      have u2 := whitespace_i_bound src sB (g2 w2)
      have u3 := whitespace_rest src sB
      obtain ⟨o1, o2, o3⟩ := optComment_spec src (Pd.whitespace src sB)
      have v1 := whitespace_i_le src (Pd.optComment src (Pd.whitespace src sB)).2
      have v2 := whitespace_i_bound src (Pd.optComment src (Pd.whitespace src sB)).2 (o2 u2)
      have v3 := whitespace_rest src (Pd.optComment src (Pd.whitespace src sB)).2
      simp only [Option.some.injEq, Prod.mk.injEq] at h
      obtain ⟨-, hs⟩ := h
      subst hs
      refine ⟨by omega, by omega, ?_⟩
      rw [v3, o3, u3, g3, w3]
  | false =>
    cases hfrom : strAt src s.i (bytes "from") with
    | false =>
      simp only [Pd.import_stmt, string_false_eq _ _ _ hkw,
        string_false_eq _ _ _ hfrom] at h
      exact absurd h (by simp)
    | true =>
      simp only [Pd.import_stmt, string_false_eq _ _ _ hkw,
        string_true_eq _ _ _ hfrom] at h
      have hfb := strAt_true_bound src (bytes "from") s.i (by decide) hfrom
      have hfl : (bytes "from").length = 4 := rfl
      have w1 := ws_mk_le src (s.i + (bytes "from").length) s.rest
      have w2 := ws_mk_bound src (s.i + (bytes "from").length) s.rest (by omega)
      have w3 := ws_mk_rest src (s.i + (bytes "from").length) s.rest
      cases hrm : Pd.relative_module src
          (Pd.whitespace src (Ps.mk (s.i + (bytes "from").length) s.rest)) with
      | none => simp only [hrm] at h; exact absurd h (by simp)
      | some pr =>
        obtain ⟨frm, sB⟩ := pr
        obtain ⟨g1, g2, g3⟩ := relative_module_spec src _ frm sB hrm
        simp only [hrm] at h
        have u1 := whitespace_i_le src sB
        have u2 := whitespace_i_bound src sB (g2 w2)
        have u3 := whitespace_rest src sB
        cases hkw2 : strAt src (Pd.whitespace src sB).i (bytes "import") with
        | false =>
          simp only [string_false_eq _ _ _ hkw2] at h
          exact absurd h (by simp)
        | true =>
          simp only [string_true_eq _ _ _ hkw2] at h
          have hib := strAt_true_bound src (bytes "import")
            (Pd.whitespace src sB).i (by decide) hkw2
          have hil6 : (bytes "import").length = 6 := rfl
          have x1 := ws_mk_le src
            ((Pd.whitespace src sB).i + (bytes "import").length) (Pd.whitespace src sB).rest
          have x2 := ws_mk_bound src
            ((Pd.whitespace src sB).i + (bytes "import").length) (Pd.whitespace src sB).rest
            (by omega)
          have x3 := ws_mk_rest src
            ((Pd.whitespace src sB).i + (bytes "import").length) (Pd.whitespace src sB).rest
          set sW : Ps := Pd.whitespace src
            (Ps.mk ((Pd.whitespace src sB).i + (bytes "import").length)
              (Pd.whitespace src sB).rest) with hsW
          cases hstar : strAt src sW.i (bytes "*") with
          | true =>
            simp only [string_true_eq _ _ _ hstar] at h
            have hstb := strAt_true_bound src (bytes "*") sW.i (by decide) hstar
            have hstl : (bytes "*").length = 1 := rfl
            have y1 := ws_mk_le src (sW.i + (bytes "*").length) sW.rest
            have y2 := ws_mk_bound src (sW.i + (bytes "*").length) sW.rest (by omega)
            have y3 := ws_mk_rest src (sW.i + (bytes "*").length) sW.rest
            obtain ⟨o1, o2, o3⟩ := optComment_spec src
              (Pd.whitespace src (Ps.mk (sW.i + (bytes "*").length) sW.rest))
            have v1 := whitespace_i_le src (Pd.optComment src
              (Pd.whitespace src (Ps.mk (sW.i + (bytes "*").length) sW.rest))).2
            have v2 := whitespace_i_bound src (Pd.optComment src
              (Pd.whitespace src (Ps.mk (sW.i + (bytes "*").length) sW.rest))).2 (o2 y2)
            have v3 := whitespace_rest src (Pd.optComment src
              (Pd.whitespace src (Ps.mk (sW.i + (bytes "*").length) sW.rest))).2
            simp only [Option.some.injEq, Prod.mk.injEq] at h
            obtain ⟨-, hs⟩ := h
            subst hs
            refine ⟨by omega, by omega, ?_⟩
            rw [v3, o3, y3, x3, u3, g3, w3]
          | false =>
            simp only [string_false_eq _ _ _ hstar] at h
            cases hil : Pd.identifier_list src sW with
            | none => simp only [hil] at h; exact absurd h (by simp)
            | some pr2 =>
              obtain ⟨ids, sC⟩ := pr2
              obtain ⟨q1, q2, q3⟩ := identifier_list_spec src sW ids sC hil
              simp only [hil] at h
              have z1 := whitespace_i_le src sC
              have z2 := whitespace_i_bound src sC (q2 x2)
              have z3 := whitespace_rest src sC
              obtain ⟨o1, o2, o3⟩ := optComment_spec src (Pd.whitespace src sC)
              have v1 := whitespace_i_le src (Pd.optComment src (Pd.whitespace src sC)).2
              have v2 := whitespace_i_bound src
                (Pd.optComment src (Pd.whitespace src sC)).2 (o2 z2)
              have v3 := whitespace_rest src (Pd.optComment src (Pd.whitespace src sC)).2
              simp only [Option.some.injEq, Prod.mk.injEq] at h
              obtain ⟨-, hs⟩ := h
              subst hs
              refine ⟨by omega, by omega, ?_⟩
              rw [v3, o3, z3, q3, x3, u3, g3, w3]

/-- The statement loop of `start`, run with enough fuel, always
succeeds; on success either nothing was consumed and the incoming
state is returned untouched, or the recorded block-end cursor is
exactly the offset at which the last successfully parsed statement
rule stopped. -/
theorem start_go_spec (src : List Nat) :
    ∀ (fuel : Nat) (s : Ps) (acc : List Import),
      1 ≤ fuel → src.length + 1 - s.i ≤ fuel →
      ∃ res s2, Pd.start_go src fuel s acc = some (res, s2) ∧
        ((res = acc ∧ s2 = s) ∨
          (∃ sp imp sq, res.getLast? = some imp ∧
            Pd.import_stmt src sp = some (imp, sq) ∧ s2.rest = sq.i)) := by
  intro fuel
  induction fuel with
  | zero => intro s acc h1 _; omega
  | succ fuel ih =>
    intro s acc h1 h2
    cases himp : Pd.import_stmt src s with
    | none =>
      refine ⟨acc, s, ?_, Or.inl ⟨rfl, rfl⟩⟩
      simp [Pd.start_go, himp]
    | some pr =>
      obtain ⟨imp, sA⟩ := pr
      obtain ⟨a1, a2, a3⟩ := import_stmt_spec src s imp sA himp
      have hw1 := ws_mk_le src sA.i sA.i
      have hw2 := ws_mk_bound src sA.i sA.i a2
      have hw3 := ws_mk_rest src sA.i sA.i
      have hf1 : 1 ≤ fuel := by omega
      have hf2 : src.length + 1 - (Pd.whitespace src (Ps.mk sA.i sA.i)).i ≤ fuel := by
        omega
      obtain ⟨res, s2, hgo, hcase⟩ :=
        ih (Pd.whitespace src (Ps.mk sA.i sA.i)) (acc ++ [imp]) hf1 hf2
      refine ⟨res, s2, ?_, ?_⟩
      · simp only [Pd.start_go, himp]
        exact hgo
      · rcases hcase with ⟨hres, hs2⟩ | hlast
        · right
          refine ⟨s, imp, sA, ?_, himp, ?_⟩
          · rw [hres, List.getLast?_concat]
          · rw [hs2, hw3]
        · right
          exact hlast

/-- Claim C6 (amended): the program rule never fails; when zero
statements are recognized it yields an empty list with the block-end
cursor still at the start of the buffer; and when statements were
recognized, the recorded block-end cursor is exactly the offset at
which the rule for the last parsed statement stopped — which is after
the whitespace that the statement rule itself consumed following the
statement, not before it. -/
theorem C6_start_amended (src : List Nat) :
    ∃ imports s2, Pd.start src Ps.new = some (imports, s2) ∧
      (imports = [] → s2.rest = 0) ∧
      (imports ≠ [] → ∃ sp imp sq, imports.getLast? = some imp ∧
        Pd.import_stmt src sp = some (imp, sq) ∧ s2.rest = sq.i) := by
  have h0 : 1 ≤ src.length + 1 := by omega
  have h2 : src.length + 1 - (Pd.whitespace src Ps.new).i ≤ src.length + 1 := by omega
  obtain ⟨res, s2, hgo, hcase⟩ :=
    start_go_spec src (src.length + 1) (Pd.whitespace src Ps.new) [] h0 h2
  refine ⟨res, s2, by simp only [Pd.start]; exact hgo, ?_, ?_⟩
  · intro hemp
    rcases hcase with ⟨-, hs2⟩ | ⟨sp, imp, sq, hlast, -, -⟩
    · rw [hs2, whitespace_rest]
      rfl
    · rw [hemp] at hlast
      simp at hlast
  · intro hne
    rcases hcase with ⟨hres, -⟩ | hlast
    · exact absurd hres hne
    · exact hlast

/-- Witness for the amended claim C6 at the concrete buffer
`import os\nx = 1\n`. -/
theorem C6_start_amended_witness :
    ∃ imports s2,
      Pd.start (bytes "import os\nx = 1\n") Ps.new = some (imports, s2) ∧
      (imports = [] → s2.rest = 0) ∧
      (imports ≠ [] → ∃ sp imp sq, imports.getLast? = some imp ∧
        Pd.import_stmt (bytes "import os\nx = 1\n") sp = some (imp, sq) ∧
        s2.rest = sq.i) :=
  C6_start_amended (bytes "import os\nx = 1\n")

end Imp
